import Mathlib

/-!
Verification development for the LocalNode trust-and-routing layer.

The JavaScript source is shallowly embedded: JS strings are lists of
characters (`JStr`), directories and `Map`s are association lists, and
side effects (OpenSSL invocations, IPFS RPC calls, file writes) are
explicit event lists threaded through state-passing functions.  Each
definition mirrors the structure of the corresponding source function.
-/

/-- A JavaScript string, modelled as its list of characters. -/
abbrev JStr := List Char

/-- JS `s.endsWith(suffix)`. -/
def jsEndsWith (s suffix : JStr) : Bool := suffix.isSuffixOf s

/-- JS `s.includes(sub)` (substring containment). -/
def jsIncludes (s sub : JStr) : Bool := decide (sub <:+: s)

/-- JS `s.split(c)`: splits at every occurrence of `c`; never returns `[]`
(splitting the empty string yields `[[]]`, as in JS). -/
def splitOnChar (c : Char) : JStr → List JStr
  | [] => [[]]
  | x :: xs =>
    if x = c then [] :: splitOnChar c xs
    else
      match splitOnChar c xs with
      | [] => [[x]]
      | h :: t => (x :: h) :: t

/-- Joining dot-separated labels back together (used to quantify over the
label structure of a hostname). -/
def joinDots : List JStr → JStr
  | [] => []
  | [l] => l
  | l :: ls => l ++ '.' :: joinDots ls

/-- Whitespace characters recognised by JS `String.prototype.trim`. -/
def isJsSpace (c : Char) : Bool := c = ' ' || c = '\t' || c = '\n' || c = '\r'

/-- JS `s.trim()`. -/
def jsTrim (s : JStr) : JStr :=
  ((s.dropWhile isJsSpace).reverse.dropWhile isJsSpace).reverse

/-- The comparison used by JS `Array.prototype.sort()` on strings:
lexicographic order on code units. -/
def jsLeq : JStr → JStr → Bool
  | [], _ => true
  | _ :: _, [] => false
  | a :: as, b :: bs => if a = b then jsLeq as bs else decide (a < b)

/-- Relation form of `jsLeq`, for use with `List.insertionSort`. -/
def jsLe (a b : JStr) : Prop := jsLeq a b = true

instance : DecidableRel jsLe := fun a b => inferInstanceAs (Decidable (jsLeq a b = true))

theorem jsLeq_refl (a : JStr) : jsLeq a a = true := by
  induction a with
  | nil => rfl
  | cons c cs ih => simp [jsLeq, ih]

theorem jsLeq_total (a b : JStr) : jsLeq a b = true ∨ jsLeq b a = true := by
  induction a generalizing b with
  | nil => left; rfl
  | cons x xs ih =>
    cases b with
    | nil => right; rfl
    | cons y ys =>
      by_cases hxy : x = y
      · subst hxy
        rcases ih ys with h | h
        · left; simp [jsLeq, h]
        · right; simp [jsLeq, h]
      · rcases lt_or_gt_of_ne hxy with h | h
        · left; simp [jsLeq, hxy, h]
        · right; simp [jsLeq, Ne.symm hxy, h]

theorem jsLeq_trans {a b c : JStr} (hab : jsLeq a b = true) (hbc : jsLeq b c = true) :
    jsLeq a c = true := by
  induction a generalizing b c with
  | nil => rfl
  | cons x xs ih =>
    cases b with
    | nil => simp [jsLeq] at hab
    | cons y ys =>
      cases c with
      | nil => simp [jsLeq] at hbc
      | cons z zs =>
        by_cases hxy : x = y
        · subst hxy
          by_cases hyz : x = z
          · subst hyz
            simp only [jsLeq, if_pos rfl] at hab hbc ⊢
            exact ih hab hbc
          · simp only [jsLeq, if_pos rfl] at hab
            simp only [jsLeq, if_neg hyz] at hbc ⊢
            exact hbc
        · simp only [jsLeq, if_neg hxy, decide_eq_true_eq] at hab
          by_cases hyz : y = z
          · subst hyz
            simp [jsLeq, hxy, hab]
          · simp only [jsLeq, if_neg hyz, decide_eq_true_eq] at hbc
            have hxz : x < z := lt_trans hab hbc
            simp [jsLeq, ne_of_lt hxz, hxz]

theorem jsLeq_antisymm {a b : JStr} (hab : jsLeq a b = true) (hba : jsLeq b a = true) :
    a = b := by
  induction a generalizing b with
  | nil =>
    cases b with
    | nil => rfl
    | cons y ys => simp [jsLeq] at hba
  | cons x xs ih =>
    cases b with
    | nil => simp [jsLeq] at hab
    | cons y ys =>
      by_cases hxy : x = y
      · subst hxy
        simp only [jsLeq, if_pos rfl] at hab hba
        rw [ih hab hba]
      · simp only [jsLeq, if_neg hxy, decide_eq_true_eq] at hab
        simp only [jsLeq, if_neg (Ne.symm hxy), decide_eq_true_eq] at hba
        exact absurd (lt_trans hab hba) (lt_irrefl x)

instance : IsTotal JStr jsLe := ⟨jsLeq_total⟩

instance : IsTrans JStr jsLe := ⟨fun _ _ _ => jsLeq_trans⟩

/-- Association-list lookup (JS object property / `Map.get`). -/
def lookupAssoc {α : Type} : List (JStr × α) → JStr → Option α
  | [], _ => none
  | (n, v) :: rest, key => if n = key then some v else lookupAssoc rest key

/-- Association-list update (JS `Map.set` / `fs.writeFileSync`): replaces the
value when the key is present, otherwise appends the new binding. -/
def setAssoc {α : Type} : List (JStr × α) → JStr → α → List (JStr × α)
  | [], key, v => [(key, v)]
  | (n, w) :: rest, key, v =>
    if n = key then (n, v) :: rest else (n, w) :: setAssoc rest key v

/-- Association-list removal (JS `Map.delete`). -/
def delAssoc {α : Type} : List (JStr × α) → JStr → List (JStr × α)
  | [], _ => []
  | (n, w) :: rest, key =>
    if n = key then delAssoc rest key else (n, w) :: delAssoc rest key

theorem lookupAssoc_setAssoc_self {α : Type} (l : List (JStr × α)) (k : JStr) (v : α) :
    lookupAssoc (setAssoc l k v) k = some v := by
  induction l with
  | nil => simp [setAssoc, lookupAssoc]
  | cons p rest ih =>
    obtain ⟨n, w⟩ := p
    by_cases h : n = k
    · simp [setAssoc, lookupAssoc, h]
    · simp [setAssoc, lookupAssoc, h, ih]

theorem setAssoc_of_lookup_none {α : Type} (l : List (JStr × α)) (k : JStr) (v : α)
    (h : lookupAssoc l k = none) : setAssoc l k v = l ++ [(k, v)] := by
  induction l with
  | nil => simp [setAssoc]
  | cons p rest ih =>
    obtain ⟨n, w⟩ := p
    by_cases hn : n = k
    · simp [lookupAssoc, hn] at h
    · simp only [lookupAssoc, if_neg hn] at h
      simp [setAssoc, hn, ih h]

/-! ## Durable resolution cache (`src/utils/cache-manager.js`)

The on-disk cache directory of a domain is an association list from filename to
file contents; `none` models a directory that does not exist. -/

/-- Contents of the cache directory of one domain: filename to file contents. -/
abbrev Dir := List (JStr × JStr)

def txtSuffix : JStr := (".txt").toList

/-- The `.txt` version filenames present in a directory listing. -/
def txtNames (files : Dir) : List JStr :=
  (files.map Prod.fst).filter (fun f => jsEndsWith f txtSuffix)

/-- The filename the source selects as latest: the directory listing is
filtered to names ending in `.txt`, sorted, reversed, and its head taken. -/
def latestTxtName (files : Dir) : Option JStr :=
  match (List.insertionSort jsLe (txtNames files)).reverse with
  | [] => none
  | latest :: _ => some latest

/-- Source function `getLatestCid` (cache-manager.js:27): trimmed contents of the
lexicographically greatest `.txt` file, or `null` when the directory is
missing, holds no `.txt` file, or the read fails. -/
def getLatestCid (dir : Option Dir) : Option JStr :=
  match dir with
  | none => none
  | some files =>
    match latestTxtName files with
    | none => none
    | some latest =>
      match lookupAssoc files latest with
      | none => none
      | some content => some (jsTrim content)

/-- Decimal-timestamp version filename (the timestamp in decimal, then
`.txt`) written by `saveCidIfChanged`. -/
def tsName (now : Nat) : JStr := Nat.toDigits 10 now ++ txtSuffix

/-- Source function `saveCidIfChanged` (cache-manager.js:62): no-op returning
`false` when the cid equals the latest durable entry, otherwise ensures the
directory exists and writes one timestamp-named file holding the cid. -/
def saveCidIfChanged (dir : Option Dir) (cid : JStr) (now : Nat) : Option Dir × Bool :=
  if getLatestCid dir = some cid then (dir, false)
  else
    let files := dir.getD []
    (some (setAssoc files (tsName now) cid), true)

theorem jsLe_max_of_sorted {l : List JStr} (hs : List.Sorted jsLe l) {m : JStr}
    (hm : l.getLast? = some m) : ∀ x ∈ l, jsLe x m := by
  induction l with
  | nil => simp at hm
  | cons a t ih =>
    intro x hx
    cases t with
    | nil =>
      simp at hm hx
      subst hm; subst hx
      exact jsLeq_refl x
    | cons b t2 =>
      rw [List.getLast?_cons_cons] at hm
      rcases List.mem_cons.mp hx with hxa | hxt
      · subst hxa
        have hmem : m ∈ b :: t2 := List.mem_of_getLast?_eq_some hm
        exact (List.sorted_cons.mp hs).1 m hmem
      · exact ih (List.sorted_cons.mp hs).2 hm x hxt

theorem latestTxtName_max (files : Dir) :
    (txtNames files = [] → latestTxtName files = none) ∧
    (txtNames files ≠ [] →
      ∃ m, latestTxtName files = some m ∧ m ∈ txtNames files ∧
        ∀ x ∈ txtNames files, jsLe x m) := by
  constructor
  · intro h
    simp [latestTxtName, h, List.insertionSort]
  · intro h
    have hperm := List.perm_insertionSort jsLe (txtNames files)
    have hsorted := List.sorted_insertionSort jsLe (txtNames files)
    have hne : List.insertionSort jsLe (txtNames files) ≠ [] := by
      intro hnil
      exact h (List.Perm.nil_eq (hnil ▸ hperm)).symm
    obtain ⟨m, hm⟩ := Option.isSome_iff_exists.mp (List.getLast?_isSome.mpr hne)
    refine ⟨m, ?_, ?_, ?_⟩
    · unfold latestTxtName
      rw [← List.head?_reverse] at hm
      cases hrev : (List.insertionSort jsLe (txtNames files)).reverse with
      | nil => rw [hrev] at hm; simp at hm
      | cons y ys =>
        rw [hrev] at hm
        simp only [List.head?_cons, Option.some.injEq] at hm
        simp [hm]
    · exact hperm.mem_iff.mp (List.mem_of_getLast?_eq_some hm)
    · intro x hx
      exact jsLe_max_of_sorted hsorted hm x (hperm.mem_iff.mpr hx)

theorem txtNames_append (files : Dir) (nm c : JStr) (h : jsEndsWith nm txtSuffix = true) :
    txtNames (files ++ [(nm, c)]) = txtNames files ++ [nm] := by
  simp [txtNames, List.filter_append, h]

theorem lookupAssoc_append_of_none {α : Type} (l : List (JStr × α)) (k : JStr) (v : α)
    (h : lookupAssoc l k = none) : lookupAssoc (l ++ [(k, v)]) k = some v := by
  induction l with
  | nil => simp [lookupAssoc]
  | cons p rest ih =>
    obtain ⟨n, w⟩ := p
    by_cases hn : n = k
    · simp [lookupAssoc, hn] at h
    · simp only [lookupAssoc, if_neg hn] at h
      simp [lookupAssoc, hn, ih h]

theorem latestTxtName_append_max (files : Dir) (nm c : JStr)
    (htxt : jsEndsWith nm txtSuffix = true)
    (hge : ∀ x ∈ txtNames files, jsLe x nm) :
    latestTxtName (files ++ [(nm, c)]) = some nm := by
  have hnames := txtNames_append files nm c htxt
  have hne : txtNames (files ++ [(nm, c)]) ≠ [] := by
    rw [hnames]; simp
  obtain ⟨m, hm, hmem, hmax⟩ := (latestTxtName_max (files ++ [(nm, c)])).2 hne
  have hnm_mem : nm ∈ txtNames (files ++ [(nm, c)]) := by rw [hnames]; simp
  have h1 : jsLe nm m := hmax nm hnm_mem
  have h2 : jsLe m nm := by
    rw [hnames] at hmem
    rcases List.mem_append.mp hmem with hold | hnew
    · exact hge m hold
    · simp at hnew
      subst hnew
      exact jsLeq_refl m
  rw [hm, jsLeq_antisymm h2 h1]

/-! ## Certificate Authority Engine (`OpenSSLCA`, part_009)

The key material and file system footprint of the CA are embedded as an explicit
state record; OpenSSL invocations that matter for the claims (key
generation, CSR creation, signing with the intermediate key) are recorded
as events.  Certificate bytes are deterministic functions of the data the
real OpenSSL calls would be given, so byte-identity of chains is list
equality. -/

/-- Entries of the `generatedCerts` cache: keyPath, certPath and pattern. -/
structure CertInfo where
  keyPath : JStr
  certPath : JStr
  pattern : JStr
deriving DecidableEq, Repr

/-- OpenSSL side effects performed by the lazy issuance path. -/
inductive CAEvent where
  /-- The openssl genrsa call writing server-key.pem inside `ensureServerKey`. -/
  | genServerKey : CAEvent
  /-- The openssl req call creating the certificate signing request. -/
  | createCSR (pattern : JStr) : CAEvent
  /-- The openssl x509 call signing the leaf with the intermediate CA key. -/
  | signWithIntermediate (pattern : JStr) : CAEvent
deriving DecidableEq, Repr

/-- State of an initialised `OpenSSLCA`: the well-known certificate bytes,
the shared server key (if generated), the in-memory `generatedCerts` cache
and the dynamically generated leaf certificate files on disk. -/
structure CAState where
  certDir : JStr
  rootCert : JStr
  intermediateCert : JStr
  nodeCert : JStr
  serverKey : Option JStr
  generatedCerts : List (JStr × CertInfo)
  leafFiles : Dir
deriving DecidableEq, Repr

/-- Source function `extractENSPattern` (part_009:331): derive the wildcard `DomainPattern`
from a hostname, or `null` when the hostname is not under `.eth.<domain>`. -/
def extractENSPattern (hostname domain : JStr) : Option JStr :=
  let suffix := (".eth.").toList ++ domain
  if jsEndsWith hostname suffix then
    let ensPath := hostname.take (hostname.length - suffix.length)
    match splitOnChar '.' ensPath with
    | [] => none
    | p :: ps =>
      if ps.isEmpty then some (("*.eth.").toList ++ domain)
      else some (("*.").toList ++ ps.getLastD p ++ (".eth.").toList ++ domain)
  else none

/-- JS global replace of every star in the pattern with the word wildcard. -/
def replaceStar : JStr → JStr
  | [] => []
  | c :: cs => (if c = '*' then ("wildcard").toList else [c]) ++ replaceStar cs

/-- JS global replace of every dot with a dash. -/
def dotsToDashes (s : JStr) : JStr := s.map (fun c => if c = '.' then '-' else c)

/-- The certificate base name derived from the pattern (stars become the
word wildcard, dots become dashes). -/
def certBaseName (pat : JStr) : JStr := dotsToDashes (replaceStar pat)

/-- The path of the generated certificate file for a pattern. -/
def certPathFor (certDir pat : JStr) : JStr :=
  certDir ++ ("/").toList ++ certBaseName pat ++ ("-cert.pem").toList

/-- The path of the shared server key file. -/
def serverKeyPath (certDir : JStr) : JStr := certDir ++ ("/server-key.pem").toList

/-- The shared 2048-bit server key bytes produced by `ensureServerKey`. -/
def mkServerKey : JStr := ("SERVER-KEY").toList

/-- The PEM bytes obtained by signing the CSR for `pat` with the
intermediate CA key; deterministic in the pattern because every leaf uses
the shared server key. -/
def mkLeafCert (pat : JStr) : JStr := ("LEAF-CERT:").toList ++ pat

/-- Source function `ensureServerKey` (part_009:234): generate the shared server key on
first use, afterwards reuse it. -/
def ensureServerKey (st : CAState) : JStr × CAState × List CAEvent :=
  match st.serverKey with
  | some _ => (serverKeyPath st.certDir, st, [])
  | none => (serverKeyPath st.certDir, { st with serverKey := some mkServerKey },
             [CAEvent.genServerKey])

/-- Source function `generateWildcardCertificateSync` (part_009:248): throws when no pattern
can be derived; returns the cached entry untouched (no events) on a cache
hit; otherwise creates a CSR for the shared key, signs it with the
intermediate CA, writes the certificate file and caches the entry. -/
def generateWildcardCertificateSync (st : CAState) (hostname domain : JStr) :
    Except JStr (CertInfo × CAState × List CAEvent) :=
  match extractENSPattern hostname domain with
  | none => Except.error (("Cannot extract ENS pattern from hostname: ").toList ++ hostname)
  | some pat =>
    match lookupAssoc st.generatedCerts pat with
    | some info => Except.ok (info, st, [])
    | none =>
      let r := ensureServerKey st
      let keyPath := r.1
      let st1 := r.2.1
      let evs1 := r.2.2
      let cp := certPathFor st1.certDir pat
      let st2 := { st1 with leafFiles := setAssoc st1.leafFiles cp (mkLeafCert pat) }
      let info : CertInfo := ⟨keyPath, cp, pat⟩
      let st3 := { st2 with generatedCerts := setAssoc st2.generatedCerts pat info }
      Except.ok (info, st3,
        evs1 ++ [CAEvent.createCSR pat, CAEvent.signWithIntermediate pat])

/-- Result of the SNI callback: `callback(null)` (use the default secure
context), `callback(null, ctx)` with a key and a certificate chain, or
`callback(error)`. -/
inductive SNIRes where
  | useDefault : SNIRes
  | chain (key : JStr) (certs : List JStr) : SNIRes
  | failure (msg : JStr) : SNIRes
deriving DecidableEq, Repr

/-- Reading the full leaf chain (`serverCert + intermediate + root`) for a
cached or freshly generated `certInfo`, as done at part_009:547-554. -/
def readLeafChain (st : CAState) (info : CertInfo) (evs : List CAEvent) :
    SNIRes × CAState × List CAEvent :=
  match st.serverKey, lookupAssoc st.leafFiles info.certPath with
  | some key, some leaf =>
    (SNIRes.chain key [leaf, st.intermediateCert, st.rootCert], st, evs)
  | _, _ => (SNIRes.failure (("ENOENT").toList), st, evs)

/-- The callback returned by `getSNICallback` (part_009:499): empty name →
default context; `node.<domain>` names → node cert + root (no
intermediate); default or underivable pattern → default context; otherwise
the (possibly lazily generated) leaf + intermediate + root. -/
def sniCallback (st : CAState) (servername domain : JStr) :
    SNIRes × CAState × List CAEvent :=
  if servername.isEmpty then (SNIRes.useDefault, st, [])
  else if jsEndsWith servername ((".node.").toList ++ domain) ||
          servername = ("node.").toList ++ domain then
    match st.serverKey with
    | none => (SNIRes.failure (("ENOENT").toList), st, [])
    | some key => (SNIRes.chain key [st.nodeCert, st.rootCert], st, [])
  else
    match extractENSPattern servername domain with
    | none => (SNIRes.useDefault, st, [])
    | some pat =>
      if pat = ("*.eth.").toList ++ domain then (SNIRes.useDefault, st, [])
      else
        match lookupAssoc st.generatedCerts pat with
        | some info => readLeafChain st info []
        | none =>
          match generateWildcardCertificateSync st servername domain with
          | Except.error e => (SNIRes.failure e, st, [])
          | Except.ok (info, st1, evs) => readLeafChain st1 info evs

/-- Every `generatedCerts` entry has its certificate file on disk (true of
every state the CA reaches, since issuance writes the file it caches). -/
def certsOnDisk (st : CAState) : Prop :=
  ∀ p info, lookupAssoc st.generatedCerts p = some info →
    ∃ leaf, lookupAssoc st.leafFiles info.certPath = some leaf

/-! ## Resolution cache (`ENSResolver.resolveENS`, helios-client.js part)

The in-memory cache is a `Map` from domain to a cid with expiry; the
single live-resolution attempt of one call (`_resolveFromENS`, including
waiting for the Helios collaborator) is abstracted as an `Except` input:
`ok cid` for a successful resolution, `error msg` for any failure (offline
collaborator, unresolvable name, missing content hash, timeout). -/

/-- One in-memory cache entry: a cid and its expiry time. -/
structure MemEntry where
  cid : JStr
  expiresAt : Nat
deriving DecidableEq, Repr

/-- The in-memory ENS → CID cache. -/
abbrev MemCache := List (JStr × MemEntry)

/-- The in-memory TTL of 12000 ms (one Ethereum block time). -/
def cacheTtl : Nat := 12000

/-- The body of `resolveENS` after the in-memory cache has been consulted:
live resolution, else durable-cache fallback, else a propagated error. -/
def resolveCore (mem : MemCache) (dir : Option Dir) (collab : Except JStr JStr)
    (domain : JStr) (now : Nat) : Except JStr JStr × MemCache :=
  match collab with
  | Except.ok ipfsHash =>
    (Except.ok ipfsHash, setAssoc mem domain ⟨ipfsHash, now + cacheTtl⟩)
  | Except.error e =>
    match getLatestCid dir with
    | some cachedCid =>
      (Except.ok cachedCid, setAssoc mem domain ⟨cachedCid, now + cacheTtl⟩)
    | none =>
      (Except.error (("Cannot resolve ").toList ++ domain ++ (": ").toList ++ e ++
        (" (no cache available)").toList), mem)

/-- Source function `resolveENS` (helios-client.js part, lines 194-249): serve an unexpired
in-memory entry; drop an expired one; then resolve live with durable
fallback. -/
def resolveENS (mem : MemCache) (dir : Option Dir) (collab : Except JStr JStr)
    (domain : JStr) (now : Nat) : Except JStr JStr × MemCache :=
  match lookupAssoc mem domain with
  | some cached =>
    if now < cached.expiresAt then (Except.ok cached.cid, mem)
    else resolveCore (delAssoc mem domain) dir collab domain now
  | none => resolveCore mem dir collab domain now

/-! ## Auto-seeding reconciler and cache admin (`server.js`, `cache-api.js`)

IPFS RPC calls are recorded as events.  The multiformats `CID` value a
string parses to is embedded as its canonical components (version, codec,
multihash); `CID.parse` itself is library code outside this repository, so
the reconciler is parametrised by the parsing function, and `equals` is
equality of the canonical components. -/

/-- Canonical components of a parsed content identifier, as compared by
`CID.equals` in the multiformats library. -/
structure Cid where
  version : Nat
  codec : Nat
  multihash : List Nat
deriving DecidableEq, Repr

/-- IPFS/cache side effects of the reconciler and the cache-admin API. -/
inductive SeedEvent where
  /-- The files.cp call copying the cid into the localnode-cache MFS directory. -/
  | copyToCache (cid : JStr) : SeedEvent
  /-- The pin.add call for a cid, with its recursive flag. -/
  | pinAdd (cid : JStr) (recursive : Bool) : SeedEvent
  /-- The pin.rm call (unpin) for a cid. -/
  | pinRm (cid : JStr) : SeedEvent
  /-- The saveCidIfChanged call (persist via the resolution cache). -/
  | saveCid (domain cid : JStr) : SeedEvent
  /-- The write of the empty auto-seed marker file. -/
  | writeMarker (domain : JStr) : SeedEvent
deriving DecidableEq, Repr

/-- Source function `updateAutoSeedingDomain` (server.js:329): copy the new CID into the
durable MFS cache, pin it recursively, persist it via the resolution
cache. -/
def updateAutoSeedingDomain (dir : Option Dir) (domain newCid : JStr) (now : Nat) :
    List SeedEvent × Option Dir :=
  ([SeedEvent.copyToCache newCid, SeedEvent.pinAdd newCid true,
    SeedEvent.saveCid domain newCid],
   (saveCidIfChanged dir newCid now).1)

/-- Source function `checkDomainUpdate` (server.js:298): re-resolve the domain, parse both
CIDs, compare them with `CID.equals`, and update only on a canonical
change; any error (failed resolution, unparsable CID) is caught and the
cycle continues with no effects for this domain. -/
def checkDomainUpdate (parseCid : JStr → Option Cid) (resolved : Except JStr JStr)
    (dir : Option Dir) (domain oldCid : JStr) (now : Nat) :
    List SeedEvent × Option Dir :=
  match resolved with
  | Except.error _ => ([], dir)
  | Except.ok newCid =>
    match parseCid oldCid, parseCid newCid with
    | some oldObj, some newObj =>
      if oldObj = newObj then ([], dir)
      else updateAutoSeedingDomain dir domain newCid now
    | _, _ => ([], dir)

/-- The `auto-seeding` marker filename. -/
def autoSeedMarker : JStr := ("auto-seeding").toList

/-- Source function `enableAutoSeeding` (cache-api.js:33), with the IPFS manager present (as
in `server.js`): fails when the domain has no cached CID; otherwise
requests a recursive pin, and only after the pin succeeds writes the
auto-seed marker file and returns `true`.  The outcome of `pin.add` is the
`pinResult` input. -/
def enableAutoSeeding (dir : Option Dir) (domain : JStr) (pinResult : Except JStr Unit) :
    Except JStr Bool × Option Dir × List SeedEvent :=
  let files := dir.getD []
  match getLatestCid (some files) with
  | none => (Except.error (("No CID found for domain: ").toList ++ domain),
             some files, [])
  | some cid =>
    match pinResult with
    | Except.error e =>
      (Except.error (("Failed to pin content: ").toList ++ e), some files,
       [SeedEvent.pinAdd cid true])
    | Except.ok _ =>
      (Except.ok true, some (setAssoc files autoSeedMarker []),
       [SeedEvent.pinAdd cid true, SeedEvent.writeMarker domain])

/-! ## Host router (`server.js` combinedApp + `routes.js`)

The combined HTTPS listener picks a sub-application from the raw Host
header by substring tests; the content-proxy application itself answers
404 when the host is not a name followed by `.eth.` and the base. -/

/-- Which sub-handler ends up answering a decrypted request. -/
inductive Dispatch where
  | rpc : Dispatch
  | cacheAdmin : Dispatch
  | contentProxy : Dispatch
  | notFound : Dispatch
deriving DecidableEq, Repr

/-- Source function `extractENSDomain` (routes.js:160): the anchored regex
matching one or more characters, then a literal dot-eth-dot, then the
base (taken literal and dot-free), returning the captured name plus `.eth`. -/
def extractENSDomain (host base : JStr) : Option JStr :=
  let suffix := (".eth.").toList ++ base
  if jsEndsWith host suffix && decide (suffix.length < host.length) then
    some (host.take (host.length - suffix.length) ++ (".eth").toList)
  else none

/-- The routing the code performs (server.js:382-397 composed with
routes.js): a host containing the substring `ethereum.node.` goes to the RPC
app; a host containing `node.localhost` goes to the cache-admin app; otherwise the
content-proxy app, which 404s unless `extractENSDomain` succeeds. -/
def codeDispatch (host base : JStr) : Dispatch :=
  if jsIncludes host (("ethereum.node.").toList) then Dispatch.rpc
  else if jsIncludes host (("node.localhost").toList) then Dispatch.cacheAdmin
  else
    match extractENSDomain host base with
    | some _ => Dispatch.contentProxy
    | none => Dispatch.notFound

/-- JS-style lower-casing of a host (ASCII case folding). -/
def jsToLower (s : JStr) : JStr := s.map Char.toLower

/-- Dropping a `:port` suffix from a Host header value. -/
def stripPort (host : JStr) : JStr := host.takeWhile (fun c => c ≠ ':')

/-- Modelled from the spec: the claimed dispatch — case-insensitive, port
suffix stripped, by exact/suffix match: hosts under `ethereum.node.<base>`
→ RPC; hosts equal to or under `node.<base>` → cache-admin; hosts matching
`*.eth.<base>` → content-proxy; anything else → 404. -/
def specDispatch (host base : JStr) : Dispatch :=
  let h := jsToLower (stripPort host)
  if h = ("ethereum.node.").toList ++ base ||
     jsEndsWith h ((".ethereum.node.").toList ++ base) then Dispatch.rpc
  else if h = ("node.").toList ++ base ||
          jsEndsWith h ((".node.").toList ++ base) then Dispatch.cacheAdmin
  else if jsEndsWith h ((".eth.").toList ++ base) &&
          decide ((".eth.").toList.length + base.length < h.length) then
    Dispatch.contentProxy
  else Dispatch.notFound

/-! ## Lemmas on splitting and joining hostnames -/

theorem splitOnChar_of_not_mem (c : Char) (l : JStr) (h : c ∉ l) :
    splitOnChar c l = [l] := by
  induction l with
  | nil => rfl
  | cons x xs ih =>
    have hx : x ≠ c := fun hxc => h (hxc ▸ List.mem_cons_self x xs)
    have hxs : c ∉ xs := fun hm => h (List.mem_cons_of_mem x hm)
    simp only [splitOnChar, if_neg hx, ih hxs]

theorem splitOnChar_append_cons (c : Char) (l t : JStr) (h : c ∉ l) :
    splitOnChar c (l ++ c :: t) = l :: splitOnChar c t := by
  induction l with
  | nil => simp [splitOnChar]
  | cons x xs ih =>
    have hx : x ≠ c := fun hxc => h (hxc ▸ List.mem_cons_self x xs)
    have hxs : c ∉ xs := fun hm => h (List.mem_cons_of_mem x hm)
    simp only [List.cons_append, splitOnChar, if_neg hx]
    rw [show xs.append (c :: t) = xs ++ c :: t from rfl, ih hxs]

theorem splitOnChar_joinDots (ls : List JStr) (hne : ls ≠ [])
    (hdot : ∀ l ∈ ls, '.' ∉ l) : splitOnChar '.' (joinDots ls) = ls := by
  induction ls with
  | nil => exact absurd rfl hne
  | cons l rest ih =>
    cases rest with
    | nil =>
      simp only [joinDots]
      exact splitOnChar_of_not_mem '.' l (hdot l (List.mem_cons_self l []))
    | cons l2 rest2 =>
      have hjoin : joinDots (l :: l2 :: rest2) = l ++ '.' :: joinDots (l2 :: rest2) := rfl
      rw [hjoin, splitOnChar_append_cons '.' l _ (hdot l (List.mem_cons_self l _)),
        ih (by simp) (fun x hx => hdot x (List.mem_cons_of_mem l hx))]

theorem jsEndsWith_append (l suffix : JStr) : jsEndsWith (l ++ suffix) suffix = true := by
  simp [jsEndsWith, List.isSuffixOf_iff_suffix]

theorem take_drop_suffix (l suffix : JStr) :
    (l ++ suffix).take ((l ++ suffix).length - suffix.length) = l := by
  have hlen : (l ++ suffix).length - suffix.length = l.length := by
    simp [List.length_append]
  rw [hlen]
  exact List.take_left l suffix

theorem extractENSPattern_joinDots (ls : List JStr) (base : JStr)
    (hne : ls ≠ []) (hdot : ∀ l ∈ ls, '.' ∉ l) :
    extractENSPattern (joinDots ls ++ (".eth.").toList ++ base) base =
      match ls with
      | [] => none
      | p :: ps =>
        if ps.isEmpty then some (("*.eth.").toList ++ base)
        else some (("*.").toList ++ ps.getLastD p ++ (".eth.").toList ++ base) := by
  have hassoc : joinDots ls ++ (".eth.").toList ++ base =
      joinDots ls ++ ((".eth.").toList ++ base) := List.append_assoc _ _ _
  have hend := jsEndsWith_append (joinDots ls) ((".eth.").toList ++ base)
  have htake := take_drop_suffix (joinDots ls) ((".eth.").toList ++ base)
  have hsplit := splitOnChar_joinDots ls hne hdot
  rw [hassoc]
  simp only [extractENSPattern, hend, if_true, htake, hsplit]
  cases ls with
  | nil => exact absurd rfl hne
  | cons p ps => rfl

/-- C8: pattern derivation is a pure, deterministic function of (hostname,
baseDomain) — identical inputs yield identical patterns; one label before
the `.eth.<base>` suffix derives the default wildcard `*.eth.<base>`, and
several labels derive `*.` followed by the last label before the suffix. -/
theorem C8_pattern_derivation (ls : List JStr) (base : JStr)
    (hne : ls ≠ []) (hdot : ∀ l ∈ ls, '.' ∉ l) :
    (∀ host2 base2, joinDots ls ++ (".eth.").toList ++ base = host2 → base = base2 →
        extractENSPattern (joinDots ls ++ (".eth.").toList ++ base) base =
          extractENSPattern host2 base2) ∧
    (ls.length = 1 →
        extractENSPattern (joinDots ls ++ (".eth.").toList ++ base) base =
          some (("*.eth.").toList ++ base)) ∧
    (∀ lastLabel, 2 ≤ ls.length → ls.getLast? = some lastLabel →
        extractENSPattern (joinDots ls ++ (".eth.").toList ++ base) base =
          some (("*.").toList ++ lastLabel ++ (".eth.").toList ++ base)) := by
  refine ⟨?_, ?_, ?_⟩
  · intro host2 base2 hh hb
    rw [hh, hb]
  · intro hlen
    rw [extractENSPattern_joinDots ls base hne hdot]
    cases ls with
    | nil => simp at hlen
    | cons p ps =>
      cases ps with
      | nil => rfl
      | cons q qs => simp at hlen
  · intro lastLabel hlen hlast
    rw [extractENSPattern_joinDots ls base hne hdot]
    cases ls with
    | nil => simp at hlen
    | cons p ps =>
      cases ps with
      | nil => simp at hlen
      | cons q qs =>
        rw [List.getLast?_cons_cons] at hlast
        simp [List.getLastD_eq_getLast?, hlast]

theorem C8_pattern_derivation_witness :
    extractENSPattern
        (joinDots [("blog").toList, ("app").toList] ++ (".eth.").toList ++
          ("localhost").toList) (("localhost").toList) =
      some (("*.").toList ++ ("app").toList ++ (".eth.").toList ++ ("localhost").toList) :=
  (C8_pattern_derivation [("blog").toList, ("app").toList] (("localhost").toList)
    (by decide) (by decide)).2.2 (("app").toList) (by decide) (by decide)

/-! ## C3: issuance is constrained to `.eth.<domain>` -/

theorem extractENSPattern_none_of_not_suffix {hostname domain : JStr}
    (h : jsEndsWith hostname ((".eth.").toList ++ domain) = false) :
    extractENSPattern hostname domain = none := by
  simp only [extractENSPattern]
  rw [h]
  rfl

theorem extractENSPattern_suffix_of_some {hostname domain pat : JStr}
    (h : extractENSPattern hostname domain = some pat) :
    jsEndsWith hostname ((".eth.").toList ++ domain) = true := by
  by_cases hs : jsEndsWith hostname ((".eth.").toList ++ domain) = true
  · exact hs
  · rw [extractENSPattern_none_of_not_suffix (Bool.not_eq_true _ ▸ hs)] at h
    exact absurd h (by simp)

theorem extractENSPattern_pattern_in_constraint {hostname domain pat : JStr}
    (h : extractENSPattern hostname domain = some pat) :
    jsEndsWith pat ((".eth.").toList ++ domain) = true := by
  have hs := extractENSPattern_suffix_of_some h
  simp only [extractENSPattern, hs, if_true] at h
  rcases hsplit : splitOnChar '.'
      (hostname.take (hostname.length - ((".eth.").toList ++ domain).length)) with
    _ | ⟨p, ps⟩
  · rw [hsplit] at h
    simp at h
  · rw [hsplit] at h
    have h2 : (if ps.isEmpty then some (("*.eth.").toList ++ domain)
        else some (("*.").toList ++ ps.getLastD p ++ (".eth.").toList ++ domain)) =
        some pat := h
    clear h
    cases hemp : ps.isEmpty with
    | true =>
      rw [hemp] at h2
      rw [if_pos rfl, Option.some.injEq] at h2
      have hres : jsEndsWith (("*.eth.").toList ++ domain)
          ((".eth.").toList ++ domain) = true :=
        jsEndsWith_append ['*'] ((".eth.").toList ++ domain)
      exact h2 ▸ hres
    | false =>
      rw [hemp] at h2
      rw [if_neg (by simp), Option.some.injEq] at h2
      have hres : jsEndsWith (("*.").toList ++ ps.getLastD p ++ (".eth.").toList ++ domain)
          ((".eth.").toList ++ domain) = true := by
        have heq : ("*.").toList ++ ps.getLastD p ++ (".eth.").toList ++ domain =
            (("*.").toList ++ ps.getLastD p) ++ ((".eth.").toList ++ domain) := by
          simp [List.append_assoc]
        rw [heq]
        exact jsEndsWith_append _ _
      exact h2 ▸ hres

/-- C3: a hostname outside the intermediate authority suffix constraint
suffix constraint fails at issuance time — the thrown error carries no new
state and no OpenSSL invocation (no CSR, no signing, no cache entry) —
while a successful issuance implies the hostname lies inside the
constraint and every pattern signed with the intermediate key does too. -/
theorem C3_suffix_constraint (st : CAState) (hostname domain : JStr) :
    (jsEndsWith hostname ((".eth.").toList ++ domain) = false →
       generateWildcardCertificateSync st hostname domain =
         Except.error (("Cannot extract ENS pattern from hostname: ").toList ++ hostname)) ∧
    (∀ info st1 evs,
       generateWildcardCertificateSync st hostname domain = Except.ok (info, st1, evs) →
       jsEndsWith hostname ((".eth.").toList ++ domain) = true ∧
       ∀ p, CAEvent.signWithIntermediate p ∈ evs →
         jsEndsWith p ((".eth.").toList ++ domain) = true) := by
  constructor
  · intro hno
    simp [generateWildcardCertificateSync, extractENSPattern_none_of_not_suffix hno]
  · intro info st1 evs hok
    rcases hpat : extractENSPattern hostname domain with _ | pat
    · simp [generateWildcardCertificateSync, hpat] at hok
    · refine ⟨extractENSPattern_suffix_of_some hpat, ?_⟩
      intro p hp
      simp only [generateWildcardCertificateSync, hpat] at hok
      rcases hcache : lookupAssoc st.generatedCerts pat with _ | info0
      · rw [hcache] at hok
        simp only [Except.ok.injEq, Prod.mk.injEq] at hok
        obtain ⟨-, -, hevs⟩ := hok
        rw [← hevs] at hp
        rcases List.mem_append.mp hp with hmem | hmem
        · cases hserv : st.serverKey with
          | none =>
            unfold ensureServerKey at hmem
            rw [hserv] at hmem
            simp at hmem
          | some k =>
            unfold ensureServerKey at hmem
            rw [hserv] at hmem
            simp at hmem
        · simp only [List.mem_cons, List.not_mem_nil, or_false] at hmem
          rcases hmem with h1 | h1
          · exact absurd h1 (by simp)
          · simp only [CAEvent.signWithIntermediate.injEq] at h1
            rw [h1]
            exact extractENSPattern_pattern_in_constraint hpat
      · rw [hcache] at hok
        simp only [Except.ok.injEq, Prod.mk.injEq] at hok
        obtain ⟨-, -, hevs⟩ := hok
        rw [← hevs] at hp
        cases hp

theorem C3_suffix_constraint_witness :
    generateWildcardCertificateSync
        ⟨("/certs").toList, ("ROOT").toList, ("INT").toList, ("NODE").toList,
          some (("KEY").toList), [], []⟩
        (("evil.com").toList) (("localhost").toList) =
      Except.error
        (("Cannot extract ENS pattern from hostname: ").toList ++ ("evil.com").toList) :=
  (C3_suffix_constraint _ _ _).1 (by decide)

/-! ## C1/C2: the SNI resolver and leaf-issuance idempotence -/

theorem eth_suffix_nonempty {h domain : JStr}
    (he : jsEndsWith h ((".eth.").toList ++ domain) = true) : h.isEmpty = false := by
  have hsuf : ((".eth.").toList ++ domain) <:+ h := by
    simpa [jsEndsWith, List.isSuffixOf_iff_suffix] using he
  cases h with
  | nil =>
    have := hsuf.length_le
    simp [List.length_append] at this
  | cons c cs => rfl

theorem eth_excludes_node {h domain : JStr}
    (he : jsEndsWith h ((".eth.").toList ++ domain) = true) :
    (jsEndsWith h ((".node.").toList ++ domain) ||
      decide (h = ("node.").toList ++ domain)) = false := by
  have hsuf1 : ((".eth.").toList ++ domain) <:+ h := by
    simpa [jsEndsWith, List.isSuffixOf_iff_suffix] using he
  apply Bool.or_eq_false_iff.mpr
  constructor
  · by_cases hn : jsEndsWith h ((".node.").toList ++ domain) = true
    · exfalso
      have hsuf2 : ((".node.").toList ++ domain) <:+ h := by
        simpa [jsEndsWith, List.isSuffixOf_iff_suffix] using hn
      rcases List.suffix_or_suffix_of_suffix hsuf1 hsuf2 with hss | hss
      · obtain ⟨t, ht⟩ := hss
        have hlen : t.length + ((".eth.").toList ++ domain).length =
            ((".node.").toList ++ domain).length := by
          rw [← List.length_append, ht]
        have htlen : t.length = 1 := by
          simp [List.length_append] at hlen
          omega
        obtain ⟨c, hc⟩ := List.length_eq_one.mp htlen
        subst hc
        have ht2 : c :: ((".eth.").toList ++ domain) = (".node.").toList ++ domain := ht
        injection ht2 with hc1 ht3
        injection ht3 with hc2 ht4
        exact absurd hc2 (by decide)
      · have hle := hss.length_le
        simp [List.length_append] at hle
    · exact Bool.eq_false_iff.mpr hn
  · apply decide_eq_false
    intro heq
    have hlen : ((".eth.").toList ++ domain).length =
        (("node.").toList ++ domain).length := by
      simp [List.length_append]
    have heq2 := (heq ▸ hsuf1).eq_of_length hlen
    injection heq2 with hc1 _
    exact absurd hc1 (by decide)

theorem generate_cache_hit {st : CAState} {hostname domain pat : JStr} {info : CertInfo}
    (hpat : extractENSPattern hostname domain = some pat)
    (hcache : lookupAssoc st.generatedCerts pat = some info) :
    generateWildcardCertificateSync st hostname domain = Except.ok (info, st, []) := by
  simp only [generateWildcardCertificateSync, hpat, hcache]

theorem generate_cache_miss {st : CAState} {hostname domain pat key : JStr}
    (hpat : extractENSPattern hostname domain = some pat)
    (hcache : lookupAssoc st.generatedCerts pat = none)
    (hkey : st.serverKey = some key) :
    generateWildcardCertificateSync st hostname domain =
      Except.ok
        (⟨serverKeyPath st.certDir, certPathFor st.certDir pat, pat⟩,
         { st with
            leafFiles := setAssoc st.leafFiles (certPathFor st.certDir pat) (mkLeafCert pat),
            generatedCerts :=
              setAssoc st.generatedCerts pat
                ⟨serverKeyPath st.certDir, certPathFor st.certDir pat, pat⟩ },
         [CAEvent.createCSR pat, CAEvent.signWithIntermediate pat]) := by
  simp only [generateWildcardCertificateSync, ensureServerKey, hpat, hcache, hkey,
    List.nil_append]

theorem generate_ok_cached {st : CAState} {hostname domain pat : JStr}
    {info : CertInfo} {st1 : CAState} {evs : List CAEvent}
    (hpat : extractENSPattern hostname domain = some pat)
    (hok : generateWildcardCertificateSync st hostname domain = Except.ok (info, st1, evs)) :
    lookupAssoc st1.generatedCerts pat = some info ∧
    evs.count (CAEvent.createCSR pat) ≤ 1 ∧
    evs.count (CAEvent.signWithIntermediate pat) ≤ 1 := by
  rcases hcache : lookupAssoc st.generatedCerts pat with _ | info0
  · rcases hkeyc : st.serverKey with _ | key
    all_goals {
      simp only [generateWildcardCertificateSync, ensureServerKey, hpat, hcache, hkeyc,
        Except.ok.injEq, Prod.mk.injEq] at hok
      obtain ⟨hinfo, hst, hevs⟩ := hok
      subst hinfo
      subst hst
      subst hevs
      refine ⟨lookupAssoc_setAssoc_self _ _ _, ?_, ?_⟩ <;> simp [List.count_cons]
    }
  · rw [generate_cache_hit hpat hcache] at hok
    simp only [Except.ok.injEq, Prod.mk.injEq] at hok
    obtain ⟨hinfo, hst, hevs⟩ := hok
    subst hinfo
    subst hst
    subst hevs
    exact ⟨hcache, by simp, by simp⟩

/-- C1: the SNI resolver returns (1) the default chain for an empty server
name, (2) the well-known admin leaf + root (no intermediate) for
`node.<domain>` names, (3) the default chain when the derived pattern is
the default wildcard or underivable, and (4) otherwise the leaf for the
derived pattern, then the intermediate, then the root, in that order. -/
theorem C1_sni_resolution (st : CAState) (servername domain : JStr) :
    (servername = [] → sniCallback st servername domain = (SNIRes.useDefault, st, [])) ∧
    (∀ key, servername.isEmpty = false →
       (jsEndsWith servername ((".node.").toList ++ domain) ||
         decide (servername = ("node.").toList ++ domain)) = true →
       st.serverKey = some key →
       sniCallback st servername domain =
         (SNIRes.chain key [st.nodeCert, st.rootCert], st, [])) ∧
    (servername.isEmpty = false →
       (jsEndsWith servername ((".node.").toList ++ domain) ||
         decide (servername = ("node.").toList ++ domain)) = false →
       (extractENSPattern servername domain = none ∨
         extractENSPattern servername domain = some (("*.eth.").toList ++ domain)) →
       sniCallback st servername domain = (SNIRes.useDefault, st, [])) ∧
    (∀ pat key, servername.isEmpty = false →
       (jsEndsWith servername ((".node.").toList ++ domain) ||
         decide (servername = ("node.").toList ++ domain)) = false →
       extractENSPattern servername domain = some pat →
       pat ≠ ("*.eth.").toList ++ domain →
       st.serverKey = some key → certsOnDisk st →
       ∃ leaf st1 evs,
         sniCallback st servername domain =
           (SNIRes.chain key [leaf, st.intermediateCert, st.rootCert], st1, evs)) := by
  refine ⟨?_, ?_, ?_, ?_⟩
  · intro hnil
    subst hnil
    simp [sniCallback]
  · intro key hne hadm hkey
    simp only [Bool.or_eq_true, decide_eq_true_eq] at hadm
    rcases hadm with ha | hb
    · simp at ha
      simp [sniCallback, hne, ha, hkey]
    · subst hb
      simp [sniCallback, hne, hkey]
  · intro hne hadm hpat
    simp only [Bool.or_eq_false_iff, decide_eq_false_iff_not] at hadm
    obtain ⟨ha, hb⟩ := hadm
    simp at ha hb
    rcases hpat with hpat | hpat
    · simp [sniCallback, hne, ha, hb, hpat]
    · simp [sniCallback, hne, ha, hb, hpat]
  · intro pat key hne hadm hpat hnp hkey hdisk
    simp only [Bool.or_eq_false_iff, decide_eq_false_iff_not] at hadm
    obtain ⟨ha, hb⟩ := hadm
    simp at ha hb hnp
    rcases hcache : lookupAssoc st.generatedCerts pat with _ | info
    · refine ⟨mkLeafCert pat,
        { st with
            leafFiles :=
              setAssoc st.leafFiles (certPathFor st.certDir pat) (mkLeafCert pat),
            generatedCerts :=
              setAssoc st.generatedCerts pat
                ⟨serverKeyPath st.certDir, certPathFor st.certDir pat, pat⟩ },
        [CAEvent.createCSR pat, CAEvent.signWithIntermediate pat], ?_⟩
      simp [sniCallback, hne, ha, hb, hpat, hnp, hcache,
        generate_cache_miss hpat hcache hkey, readLeafChain, hkey,
        lookupAssoc_setAssoc_self]
    · obtain ⟨leaf, hleaf⟩ := hdisk pat info hcache
      refine ⟨leaf, st, [], ?_⟩
      simp [sniCallback, hne, ha, hb, hpat, hnp, hcache, readLeafChain, hkey, hleaf]

/-- Initialised CA state used by the concrete witnesses. -/
def caSt0 : CAState :=
  ⟨("/certs").toList, ("ROOT").toList, ("INT").toList, ("NODE").toList,
    some (("KEY").toList), [], []⟩

theorem C1_sni_resolution_witness :
    ∃ leaf st1 evs,
      sniCallback caSt0 (("blog.app.eth.localhost").toList) (("localhost").toList) =
        (SNIRes.chain (("KEY").toList) [leaf, caSt0.intermediateCert, caSt0.rootCert],
         st1, evs) :=
  (C1_sni_resolution caSt0 (("blog.app.eth.localhost").toList) (("localhost").toList)).2.2.2
    (("*.app.eth.localhost").toList) (("KEY").toList) (by decide) (by decide) (by decide)
    (by decide) rfl (fun p info h => by simp [lookupAssoc] at h)

/-- C2: leaf issuance is idempotent per pattern — once a certificate for a
pattern exists, issuing for any hostname deriving to the same pattern
returns exactly the cached `(keyPath, certPath, pattern)` entry with no
state change and no OpenSSL invocation (at most one CSR and one signing
ever happen for a pattern), and the SNI resolver hands two hostnames with
the same pattern identical certificate chains. -/
theorem C2_issuance_idempotent (st : CAState) (h1 h2 domain pat : JStr)
    (e1 : extractENSPattern h1 domain = some pat)
    (e2 : extractENSPattern h2 domain = some pat) :
    (∀ info st1 evs,
       generateWildcardCertificateSync st h1 domain = Except.ok (info, st1, evs) →
       generateWildcardCertificateSync st1 h2 domain = Except.ok (info, st1, []) ∧
       evs.count (CAEvent.createCSR pat) ≤ 1 ∧
       evs.count (CAEvent.signWithIntermediate pat) ≤ 1) ∧
    (∀ key, st.serverKey = some key → certsOnDisk st →
       pat ≠ ("*.eth.").toList ++ domain →
       ∀ res1 st1 evs1, sniCallback st h1 domain = (res1, st1, evs1) →
         sniCallback st1 h2 domain = (res1, st1, [])) := by
  have hne1 : (h1 : JStr).isEmpty = false :=
    eth_suffix_nonempty (extractENSPattern_suffix_of_some e1)
  have hne2 : (h2 : JStr).isEmpty = false :=
    eth_suffix_nonempty (extractENSPattern_suffix_of_some e2)
  have hadm1 := eth_excludes_node (extractENSPattern_suffix_of_some e1)
  have hadm2 := eth_excludes_node (extractENSPattern_suffix_of_some e2)
  simp only [Bool.or_eq_false_iff, decide_eq_false_iff_not] at hadm1 hadm2
  obtain ⟨ha1, hb1⟩ := hadm1
  obtain ⟨ha2, hb2⟩ := hadm2
  simp at ha1 hb1 ha2 hb2
  constructor
  · intro info st1 evs hok
    obtain ⟨hlook, hc1, hc2⟩ := generate_ok_cached e1 hok
    exact ⟨generate_cache_hit e2 hlook, hc1, hc2⟩
  · intro key hkey hdisk hnp res1 st1 evs1 hsni
    simp at hnp
    rcases hcache : lookupAssoc st.generatedCerts pat with _ | info
    · have hC : sniCallback st h1 domain =
          (SNIRes.chain key [mkLeafCert pat, st.intermediateCert, st.rootCert],
           { st with
              leafFiles :=
                setAssoc st.leafFiles (certPathFor st.certDir pat) (mkLeafCert pat),
              generatedCerts :=
                setAssoc st.generatedCerts pat
                  ⟨serverKeyPath st.certDir, certPathFor st.certDir pat, pat⟩ },
           [CAEvent.createCSR pat, CAEvent.signWithIntermediate pat]) := by
        simp [sniCallback, hne1, ha1, hb1, e1, hnp, hcache,
          generate_cache_miss e1 hcache hkey, readLeafChain, hkey,
          lookupAssoc_setAssoc_self]
      rw [hC] at hsni
      simp only [Prod.mk.injEq] at hsni
      obtain ⟨rfl, rfl, rfl⟩ := hsni
      simp [sniCallback, hne2, ha2, hb2, e2, hnp, readLeafChain, hkey,
        lookupAssoc_setAssoc_self]
    · obtain ⟨leaf, hleaf⟩ := hdisk pat info hcache
      have hC : sniCallback st h1 domain =
          (SNIRes.chain key [leaf, st.intermediateCert, st.rootCert], st, []) := by
        simp [sniCallback, hne1, ha1, hb1, e1, hnp, hcache, readLeafChain, hkey, hleaf]
      rw [hC] at hsni
      simp only [Prod.mk.injEq] at hsni
      obtain ⟨rfl, rfl, rfl⟩ := hsni
      simp [sniCallback, hne2, ha2, hb2, e2, hnp, hcache, readLeafChain, hkey, hleaf]

def c2H1 : JStr := ("blog.app.eth.localhost").toList

def c2H2 : JStr := ("news.app.eth.localhost").toList

/-- The issuance result for `c2H1` from the fresh state `caSt0`. -/
def c2Gen : Except JStr (CertInfo × CAState × List CAEvent) :=
  generateWildcardCertificateSync caSt0 c2H1 (("localhost").toList)

def c2Info : CertInfo :=
  match c2Gen with
  | Except.ok (i, _, _) => i
  | Except.error _ => ⟨[], [], []⟩

def c2St1 : CAState :=
  match c2Gen with
  | Except.ok (_, s, _) => s
  | Except.error _ => caSt0

def c2Evs : List CAEvent :=
  match c2Gen with
  | Except.ok (_, _, evs) => evs
  | Except.error _ => []

theorem C2_issuance_idempotent_witness :
    generateWildcardCertificateSync c2St1 c2H2 (("localhost").toList) =
      Except.ok (c2Info, c2St1, []) :=
  ((C2_issuance_idempotent caSt0 c2H1 c2H2 (("localhost").toList)
      (("*.app.eth.localhost").toList) (by decide) (by decide)).1
    c2Info c2St1 c2Evs rfl).1

/-- C5: when the in-memory entry is absent or expired and the collaborator
call fails, `resolveENS` returns the latest durably cached CID when one
exists — repopulating the in-memory entry with a fresh TTL — and
propagates an error only when no durable entry exists. -/
theorem C5_resolver_fallback (mem : MemCache) (dir : Option Dir) (e domain : JStr)
    (now : Nat)
    (hmem : lookupAssoc mem domain = none ∨
      ∃ ent, lookupAssoc mem domain = some ent ∧ ent.expiresAt ≤ now) :
    (∀ c, getLatestCid dir = some c →
       ∃ mem1, resolveENS mem dir (Except.error e) domain now = (Except.ok c, mem1) ∧
         lookupAssoc mem1 domain = some ⟨c, now + cacheTtl⟩) ∧
    (getLatestCid dir = none →
       resolveENS mem dir (Except.error e) domain now =
         (Except.error (("Cannot resolve ").toList ++ domain ++ (": ").toList ++ e ++
            (" (no cache available)").toList),
          (resolveENS mem dir (Except.error e) domain now).2)) := by
  constructor
  · intro c hc
    rcases hmem with hnone | ⟨ent, hent, hexp⟩
    · refine ⟨setAssoc mem domain ⟨c, now + cacheTtl⟩, ?_,
        lookupAssoc_setAssoc_self _ _ _⟩
      simp [resolveENS, hnone, resolveCore, hc]
    · refine ⟨setAssoc (delAssoc mem domain) domain ⟨c, now + cacheTtl⟩, ?_,
        lookupAssoc_setAssoc_self _ _ _⟩
      have hlt : ¬ now < ent.expiresAt := by omega
      simp [resolveENS, hent, hlt, resolveCore, hc]
  · intro hc
    rcases hmem with hnone | ⟨ent, hent, hexp⟩
    · simp [resolveENS, hnone, resolveCore, hc]
    · have hlt : ¬ now < ent.expiresAt := by omega
      simp [resolveENS, hent, hlt, resolveCore, hc]

theorem C5_resolver_fallback_witness :
    ∃ mem1,
      resolveENS [] (some [(("1.txt").toList, ("cidA").toList)])
          (Except.error (("offline").toList)) (("vitalik.eth").toList) 0 =
        (Except.ok (("cidA").toList), mem1) ∧
      lookupAssoc mem1 (("vitalik.eth").toList) =
        some ⟨("cidA").toList, 0 + cacheTtl⟩ :=
  (C5_resolver_fallback [] (some [(("1.txt").toList, ("cidA").toList)])
      (("offline").toList) (("vitalik.eth").toList) 0 (Or.inl (by decide))).1
    (("cidA").toList) (by decide)

/-- C6: `saveCidIfChanged` is a no-op (returning `false`, durable state
untouched) when the cid equals the latest durable entry; otherwise (for a
fresh timestamp) it appends exactly one new versioned record holding the
cid, leaving every earlier record intact — and once saved, immediately
re-saving the same cid writes nothing. -/
theorem C6_save_idempotent (dir : Option Dir) (cid : JStr) (now now2 : Nat) :
    (getLatestCid dir = some cid → saveCidIfChanged dir cid now = (dir, false)) ∧
    (getLatestCid dir ≠ some cid →
       lookupAssoc (dir.getD []) (tsName now) = none →
       saveCidIfChanged dir cid now =
         (some ((dir.getD []) ++ [(tsName now, cid)]), true)) ∧
    (getLatestCid dir ≠ some cid →
       lookupAssoc (dir.getD []) (tsName now) = none →
       (∀ x ∈ txtNames (dir.getD []), jsLe x (tsName now)) →
       jsTrim cid = cid →
       saveCidIfChanged (saveCidIfChanged dir cid now).1 cid now2 =
         ((saveCidIfChanged dir cid now).1, false)) := by
  refine ⟨?_, ?_, ?_⟩
  · intro h
    simp [saveCidIfChanged, h]
  · intro h hfresh
    simp [saveCidIfChanged, h, setAssoc_of_lookup_none _ _ _ hfresh]
  · intro h hfresh hmax htrim
    have hsave : saveCidIfChanged dir cid now =
        (some ((dir.getD []) ++ [(tsName now, cid)]), true) := by
      simp [saveCidIfChanged, h, setAssoc_of_lookup_none _ _ _ hfresh]
    rw [hsave]
    have htxt : jsEndsWith (tsName now) txtSuffix = true := jsEndsWith_append _ _
    have hlatest := latestTxtName_append_max (dir.getD []) (tsName now) cid htxt hmax
    have hlook := lookupAssoc_append_of_none (dir.getD []) (tsName now) cid hfresh
    have hget : getLatestCid (some ((dir.getD []) ++ [(tsName now, cid)])) = some cid := by
      simp [getLatestCid, hlatest, hlook, htrim]
    simp [saveCidIfChanged, hget]

theorem C6_save_idempotent_witness :
    saveCidIfChanged (some [(("100.txt").toList, ("cidA").toList)]) (("cidB").toList) 200 =
      (some [(("100.txt").toList, ("cidA").toList), (("200.txt").toList, ("cidB").toList)],
       true) :=
  (C6_save_idempotent (some [(("100.txt").toList, ("cidA").toList)]) (("cidB").toList)
      200 300).2.1 (by decide) (by decide)

/-- C7: the reconciler compares the cached and freshly resolved identifiers
by canonical CID equality, not string equality; on a canonical match it
does nothing, on a change it performs exactly one copy-to-cache, one
recursive pin and one persist of the new identifier, and it never unpins
anything in any outcome. -/
theorem C7_reconciler_update (parse : JStr → Option Cid) (resolved : Except JStr JStr)
    (dir : Option Dir) (domain oldCid : JStr) (now : Nat) :
    (∀ newCid oldObj newObj, resolved = Except.ok newCid →
       parse oldCid = some oldObj → parse newCid = some newObj →
       (oldObj = newObj →
          checkDomainUpdate parse resolved dir domain oldCid now = ([], dir)) ∧
       (oldObj ≠ newObj →
          checkDomainUpdate parse resolved dir domain oldCid now =
            ([SeedEvent.copyToCache newCid, SeedEvent.pinAdd newCid true,
              SeedEvent.saveCid domain newCid],
             (saveCidIfChanged dir newCid now).1))) ∧
    (∀ c, SeedEvent.pinRm c ∉ (checkDomainUpdate parse resolved dir domain oldCid now).1) := by
  constructor
  · intro newCid oldObj newObj hres ho hn
    subst hres
    constructor
    · intro heq
      simp [checkDomainUpdate, ho, hn, heq]
    · intro hne
      simp [checkDomainUpdate, ho, hn, hne, updateAutoSeedingDomain]
  · intro c
    rcases resolved with e | newCid
    · simp [checkDomainUpdate]
    · rcases hpo : parse oldCid with _ | o
      · simp [checkDomainUpdate, hpo]
      · rcases hpn : parse newCid with _ | n
        · simp [checkDomainUpdate, hpo, hpn]
        · by_cases heq : o = n
          · simp [checkDomainUpdate, hpo, hpn, heq]
          · simp [checkDomainUpdate, hpo, hpn, heq, updateAutoSeedingDomain]

/-- Toy CID parser for the witness: two distinct strings decode to the same
canonical identifier. -/
def parse0 : JStr → Option Cid := fun s =>
  if s = ("b58-cid").toList then some ⟨1, 112, [7]⟩
  else if s = ("b32-cid").toList then some ⟨1, 112, [7]⟩
  else none

theorem C7_reconciler_update_witness :
    checkDomainUpdate parse0 (Except.ok (("b32-cid").toList)) (some [])
        (("vitalik.eth").toList) (("b58-cid").toList) 5 = ([], some []) :=
  ((C7_reconciler_update parse0 (Except.ok (("b32-cid").toList)) (some [])
      (("vitalik.eth").toList) (("b58-cid").toList) 5).1
    (("b32-cid").toList) ⟨1, 112, [7]⟩ ⟨1, 112, [7]⟩ rfl (by decide) (by decide)).1 rfl

/-- C9: enabling auto-seeding fails (and writes no marker) when the domain
has no cached CID; with a cached CID it requests one recursive pin, and
only after the pin succeeds does it write the auto-seed marker and return
`true` — a pin failure propagates as an error with no marker written. -/
theorem C9_enable_auto_seeding (dir : Option Dir) (domain e : JStr)
    (pinResult : Except JStr Unit) :
    (getLatestCid (some (dir.getD [])) = none →
       enableAutoSeeding dir domain pinResult =
         (Except.error (("No CID found for domain: ").toList ++ domain),
          some (dir.getD []), [])) ∧
    (∀ cid, getLatestCid (some (dir.getD [])) = some cid →
       pinResult = Except.error e →
       enableAutoSeeding dir domain pinResult =
         (Except.error (("Failed to pin content: ").toList ++ e), some (dir.getD []),
          [SeedEvent.pinAdd cid true])) ∧
    (∀ cid, getLatestCid (some (dir.getD [])) = some cid →
       pinResult = Except.ok () →
       enableAutoSeeding dir domain pinResult =
         (Except.ok true, some (setAssoc (dir.getD []) autoSeedMarker []),
          [SeedEvent.pinAdd cid true, SeedEvent.writeMarker domain])) := by
  refine ⟨?_, ?_, ?_⟩
  · intro h
    simp [enableAutoSeeding, h]
  · intro cid hcid hpin
    subst hpin
    simp [enableAutoSeeding, hcid]
  · intro cid hcid hpin
    subst hpin
    simp [enableAutoSeeding, hcid]

theorem C9_enable_auto_seeding_witness :
    enableAutoSeeding (some [(("100.txt").toList, ("cidA").toList)])
        (("vitalik.eth").toList) (Except.ok ()) =
      (Except.ok true,
       some (setAssoc [(("100.txt").toList, ("cidA").toList)] autoSeedMarker []),
       [SeedEvent.pinAdd (("cidA").toList) true,
        SeedEvent.writeMarker (("vitalik.eth").toList)]) :=
  (C9_enable_auto_seeding (some [(("100.txt").toList, ("cidA").toList)])
      (("vitalik.eth").toList) [] (Except.ok ())).2.2 (("cidA").toList) (by decide) rfl

/-! ## C10: `getLatestCid` and the lexicographic-vs-numeric selection

The helpers `tsOfName` and `digitCount` formalise the reading of a version
filename as a decimal millisecond timestamp. -/

/-- An ASCII decimal digit. -/
def isDigitChar (c : Char) : Bool := 48 ≤ c.toNat && c.toNat ≤ 57

/-- The numeric value of a decimal digit string. -/
def digitsToNat : JStr → Nat
  | [] => 0
  | c :: cs => (c.toNat - 48) * 10 ^ cs.length + digitsToNat cs

/-- The numeric timestamp of a version filename (digits before `.txt`). -/
def tsOfName (name : JStr) : Nat :=
  digitsToNat (name.take (name.length - txtSuffix.length))

/-- Number of digits of a version filename. -/
def digitCount (name : JStr) : Nat := name.length - txtSuffix.length

theorem digitsToNat_lt (s : JStr) (hd : ∀ c ∈ s, isDigitChar c = true) :
    digitsToNat s < 10 ^ s.length := by
  induction s with
  | nil => simp [digitsToNat]
  | cons c cs ih =>
    have hc := hd c (List.mem_cons_self c cs)
    have h9 : c.toNat - 48 ≤ 9 := by
      simp [isDigitChar] at hc
      omega
    have hv := ih (fun x hx => hd x (List.mem_cons_of_mem c hx))
    calc digitsToNat (c :: cs) = (c.toNat - 48) * 10 ^ cs.length + digitsToNat cs := rfl
      _ ≤ 9 * 10 ^ cs.length + digitsToNat cs :=
          Nat.add_le_add_right (Nat.mul_le_mul_right _ h9) _
      _ < 9 * 10 ^ cs.length + 10 ^ cs.length := Nat.add_lt_add_left hv _
      _ = 10 ^ (cs.length + 1) := by ring
      _ = 10 ^ (c :: cs).length := by rw [List.length_cons]

theorem char_toNat_lt_of_lt {x y : Char} (h : x < y) : x.toNat < y.toNat := h

theorem digitsToNat_le_of_jsLeq {a : JStr} :
    ∀ {b : JStr}, a.length = b.length →
    (∀ c ∈ a, isDigitChar c = true) → (∀ c ∈ b, isDigitChar c = true) →
    jsLeq a b = true → digitsToNat a ≤ digitsToNat b := by
  induction a with
  | nil => intro b _ _ _ _; simp [digitsToNat]
  | cons x xs ih =>
    intro b hlen ha hb hle
    cases b with
    | nil => simp at hlen
    | cons y ys =>
      have hlen2 : xs.length = ys.length := by simpa using hlen
      by_cases hxy : x = y
      · subst hxy
        simp only [jsLeq, if_pos rfl] at hle
        have htail := ih hlen2 (fun c hc => ha c (List.mem_cons_of_mem x hc))
          (fun c hc => hb c (List.mem_cons_of_mem x hc)) hle
        show (x.toNat - 48) * 10 ^ xs.length + digitsToNat xs ≤
          (x.toNat - 48) * 10 ^ ys.length + digitsToNat ys
        rw [hlen2]
        omega
      · simp only [jsLeq, if_neg hxy, decide_eq_true_eq] at hle
        have hxylt : x.toNat < y.toNat := char_toNat_lt_of_lt hle
        have hx := ha x (List.mem_cons_self x xs)
        have hy := hb y (List.mem_cons_self y ys)
        have hx48 : 48 ≤ x.toNat := by
          simp [isDigitChar] at hx
          omega
        have hva := digitsToNat_lt xs (fun c hc => ha c (List.mem_cons_of_mem x hc))
        have hstep : (x.toNat - 48) + 1 ≤ y.toNat - 48 := by omega
        refine Nat.le_of_lt ?_
        calc digitsToNat (x :: xs)
            = (x.toNat - 48) * 10 ^ xs.length + digitsToNat xs := rfl
          _ < ((x.toNat - 48) + 1) * 10 ^ xs.length := by
              rw [Nat.succ_mul]
              omega
          _ ≤ (y.toNat - 48) * 10 ^ xs.length :=
              Nat.mul_le_mul_right _ hstep
          _ = (y.toNat - 48) * 10 ^ ys.length := by rw [hlen2]
          _ ≤ (y.toNat - 48) * 10 ^ ys.length + digitsToNat ys := Nat.le_add_right _ _
          _ = digitsToNat (y :: ys) := rfl

theorem jsLeq_append_eq_length {a : JStr} :
    ∀ {b : JStr} (s t : JStr), a.length = b.length →
      jsLeq (a ++ s) (b ++ t) = (if a = b then jsLeq s t else jsLeq a b) := by
  induction a with
  | nil =>
    intro b s t hlen
    cases b with
    | nil => simp
    | cons y ys => simp at hlen
  | cons x xs ih =>
    intro b s t hlen
    cases b with
    | nil => simp at hlen
    | cons y ys =>
      have hlen2 : xs.length = ys.length := by simpa using hlen
      by_cases hxy : x = y
      · subst hxy
        show jsLeq (x :: (xs ++ s)) (x :: (ys ++ t)) = _
        rw [show jsLeq (x :: (xs ++ s)) (x :: (ys ++ t)) = jsLeq (xs ++ s) (ys ++ t) by
          simp [jsLeq]]
        rw [ih s t hlen2]
        by_cases hxys : xs = ys
        · subst hxys
          simp [jsLeq]
        · have hne : x :: xs ≠ x :: ys := by
            intro hcons
            injection hcons with h1 h2
            exact hxys h2
          rw [if_neg hxys, if_neg hne]
          simp [jsLeq, hxys]
      · have hne : x :: xs ≠ y :: ys := by
          intro hcons
          injection hcons with h1 _
          exact hxy h1
        show jsLeq (x :: (xs ++ s)) (y :: (ys ++ t)) = _
        rw [if_neg hne]
        simp [jsLeq, hxy]

/-- C10 counterexample: in a directory whose `.txt` version files have
digit counts 2 and 3, the lexicographically selected file is nevertheless
the numerically newest — so the selection coinciding with the numerically
newest timestamp does not require all filenames to have the same number of
digits. -/
theorem C10_counterexample :
    latestTxtName [(("19.txt").toList, ("a").toList), (("200.txt").toList, ("b").toList)] =
      some (("200.txt").toList) ∧
    getLatestCid
        (some [(("19.txt").toList, ("a").toList), (("200.txt").toList, ("b").toList)]) =
      some (("b").toList) ∧
    (∀ x ∈ txtNames [(("19.txt").toList, ("a").toList), (("200.txt").toList, ("b").toList)],
       tsOfName x ≤ tsOfName (("200.txt").toList)) ∧
    ¬ (∀ x ∈ txtNames [(("19.txt").toList, ("a").toList), (("200.txt").toList, ("b").toList)],
        ∀ y ∈ txtNames [(("19.txt").toList, ("a").toList), (("200.txt").toList, ("b").toList)],
          digitCount x = digitCount y) := by
  refine ⟨by decide, by decide, by decide, by decide⟩

/-- C10 (amended): `getLatestCid` returns the trimmed content of the `.txt`
file with the lexicographically greatest name, and `null` when the
directory is missing, holds no `.txt` file, or the read fails; whenever
all version filenames are decimal digit strings with the same number of
digits, the lexicographically selected file is also the numerically
newest (with differing digit counts the two can diverge). -/
theorem C10_getLatestCid (files : Dir) (k : Nat) :
    (getLatestCid none = none) ∧
    (txtNames files = [] → getLatestCid (some files) = none) ∧
    (txtNames files ≠ [] →
       ∃ m, latestTxtName files = some m ∧ m ∈ txtNames files ∧
         (∀ x ∈ txtNames files, jsLe x m) ∧
         getLatestCid (some files) = (lookupAssoc files m).map jsTrim) ∧
    ((∀ x ∈ txtNames files, ∃ dgs, x = dgs ++ txtSuffix ∧ dgs.length = k ∧
         ∀ c ∈ dgs, isDigitChar c = true) →
       ∀ m, latestTxtName files = some m →
         ∀ x ∈ txtNames files, tsOfName x ≤ tsOfName m) := by
  refine ⟨rfl, ?_, ?_, ?_⟩
  · intro h
    simp [getLatestCid, (latestTxtName_max files).1 h]
  · intro h
    obtain ⟨m, hm, hmem, hmax⟩ := (latestTxtName_max files).2 h
    refine ⟨m, hm, hmem, hmax, ?_⟩
    simp only [getLatestCid, hm]
    cases lookupAssoc files m with
    | none => rfl
    | some c => rfl
  · intro hforms m hm x hx
    have hne : txtNames files ≠ [] := by
      intro hnil
      rw [hnil] at hx
      cases hx
    obtain ⟨m2, hm2, hmem2, hmax2⟩ := (latestTxtName_max files).2 hne
    rw [hm] at hm2
    injection hm2 with hm2
    subst hm2
    obtain ⟨dx, hxeq, hxlen, hxdig⟩ := hforms x hx
    obtain ⟨dm, hmeq, hmlen, hmdig⟩ := hforms m hmem2
    have hle : jsLeq x m = true := hmax2 x hx
    rw [hxeq, hmeq] at hle
    rw [jsLeq_append_eq_length txtSuffix txtSuffix (hxlen.trans hmlen.symm)] at hle
    have hdle : digitsToNat dx ≤ digitsToNat dm := by
      by_cases hdd : dx = dm
      · rw [hdd]
      · rw [if_neg hdd] at hle
        exact digitsToNat_le_of_jsLeq (hxlen.trans hmlen.symm) hxdig hmdig hle
    have htsx : tsOfName x = digitsToNat dx := by
      rw [hxeq]
      unfold tsOfName
      rw [take_drop_suffix]
    have htsm : tsOfName m = digitsToNat dm := by
      rw [hmeq]
      unfold tsOfName
      rw [take_drop_suffix]
    rw [htsx, htsm]
    exact hdle

theorem C10_getLatestCid_witness :
    ∃ m, latestTxtName [(("19.txt").toList, ("a").toList), (("200.txt").toList, ("b").toList)] =
        some m ∧
      m ∈ txtNames [(("19.txt").toList, ("a").toList), (("200.txt").toList, ("b").toList)] ∧
      (∀ x ∈ txtNames [(("19.txt").toList, ("a").toList), (("200.txt").toList, ("b").toList)],
        jsLe x m) ∧
      getLatestCid
          (some [(("19.txt").toList, ("a").toList), (("200.txt").toList, ("b").toList)]) =
        (lookupAssoc [(("19.txt").toList, ("a").toList), (("200.txt").toList, ("b").toList)]
            m).map jsTrim :=
  (C10_getLatestCid [(("19.txt").toList, ("a").toList), (("200.txt").toList, ("b").toList)]
      0).2.2.1 (by decide)

/-! ## C4: host dispatch -/

theorem extractENSDomain_isSome_iff (host base : JStr) :
    (extractENSDomain host base).isSome = true ↔
      ∃ pre, pre ≠ [] ∧ host = pre ++ ((".eth.").toList ++ base) := by
  constructor
  · intro h
    cases hc : (jsEndsWith host ((".eth.").toList ++ base) &&
        decide (((".eth.").toList ++ base).length < host.length)) with
    | false =>
      simp only [extractENSDomain, hc] at h
      simp at h
    | true =>
      obtain ⟨hsufb, hlenb⟩ := Bool.and_eq_true_iff.mp hc
      have hsuf : ((".eth.").toList ++ base) <:+ host := by
        simpa [jsEndsWith, List.isSuffixOf_iff_suffix] using hsufb
      obtain ⟨t, ht⟩ := hsuf
      refine ⟨t, ?_, ht.symm⟩
      intro htnil
      subst htnil
      have hlen := of_decide_eq_true hlenb
      rw [← ht] at hlen
      simp at hlen
  · rintro ⟨pre, hpre, rfl⟩
    have h1 : jsEndsWith (pre ++ ((".eth.").toList ++ base)) ((".eth.").toList ++ base) =
        true := jsEndsWith_append _ _
    have h2 : 0 < pre.length := List.length_pos.mpr hpre
    simp at h1
    simp [extractENSDomain, h1, h2]

/-- C4 counterexample: for Host header `ethereum.node.evil.com` (base
`localhost`), the substring-based routing of the code hands the request to the
RPC sub-handler, while the claimed case-insensitive suffix dispatch
answers 404 — so the claim fails on the code. -/
theorem C4_counterexample :
    codeDispatch (("ethereum.node.evil.com").toList) (("localhost").toList) =
      Dispatch.rpc ∧
    specDispatch (("ethereum.node.evil.com").toList) (("localhost").toList) =
      Dispatch.notFound ∧
    codeDispatch (("ethereum.node.evil.com").toList) (("localhost").toList) ≠
      specDispatch (("ethereum.node.evil.com").toList) (("localhost").toList) := by
  refine ⟨by decide, by decide, by decide⟩

/-- C4 (amended): dispatch is by case-sensitive substring tests on the raw
Host header with no port stripping: a host containing `ethereum.node.`
anywhere goes to the RPC sub-handler; otherwise a host containing the
literal `node.localhost` (regardless of the configured base) goes to the
cache-admin sub-handler; otherwise the content-proxy sub-handler answers,
responding 404 unless the host is exactly `<name>.eth.<base>` with a
non-empty `<name>`. -/
theorem C4_dispatch (host base : JStr) :
    (jsIncludes host (("ethereum.node.").toList) = true →
       codeDispatch host base = Dispatch.rpc) ∧
    (jsIncludes host (("ethereum.node.").toList) = false →
       jsIncludes host (("node.localhost").toList) = true →
       codeDispatch host base = Dispatch.cacheAdmin) ∧
    (jsIncludes host (("ethereum.node.").toList) = false →
       jsIncludes host (("node.localhost").toList) = false →
       ((∃ pre, pre ≠ [] ∧ host = pre ++ ((".eth.").toList ++ base)) →
          codeDispatch host base = Dispatch.contentProxy) ∧
       (¬ (∃ pre, pre ≠ [] ∧ host = pre ++ ((".eth.").toList ++ base)) →
          codeDispatch host base = Dispatch.notFound)) := by
  refine ⟨?_, ?_, ?_⟩
  · intro h
    simp at h
    simp [codeDispatch, h]
  · intro h1 h2
    simp at h1 h2
    simp [codeDispatch, h1, h2]
  · intro h1 h2
    simp at h1 h2
    constructor
    · intro hex
      have hsome := (extractENSDomain_isSome_iff host base).mpr hex
      rcases hE : extractENSDomain host base with _ | v
      · rw [hE] at hsome
        simp at hsome
      · simp [codeDispatch, h1, h2, hE]
    · intro hnex
      rcases hE : extractENSDomain host base with _ | v
      · simp [codeDispatch, h1, h2, hE]
      · exfalso
        exact hnex ((extractENSDomain_isSome_iff host base).mp (by rw [hE]; rfl))

theorem C4_dispatch_witness :
    codeDispatch (("vitalik.eth.localhost").toList) (("localhost").toList) =
      Dispatch.contentProxy :=
  ((C4_dispatch (("vitalik.eth.localhost").toList) (("localhost").toList)).2.2
      (by decide) (by decide)).1 ⟨("vitalik").toList, by decide, by decide⟩
